import Mathlib

/-!
Verification development for the DnaCauldron combinatorial assembly core.

The Python sources are shallowly embedded as executable Lean definitions.
Conventions used throughout:

* Python strings are modelled as their code-point sequences, of type
  `List Nat`.  Python compares strings lexicographically by code point and
  so does the `LinearOrder (List Nat)` instance, and string concatenation
  becomes list append / flatten.
* Python's `hash` applied to a string is modelled by the string itself
  (an injective ideal hash), so hash equality is string equality.
* A fragment of an assembly mix (`AssemblyMix.py`) is modelled by the data
  the cycle machinery reads from it: its serialization key
  `left_end + seq + right_end`, the serialization key of its twin
  (the `reverse_fragment` installed by `compute_reverse_fragments`), its
  length `len(f)`, and its `is_reverse` flag.  Reverse complementation of
  a record preserves its length, and `compute_reverse_fragments` installs
  mutually inverse twins with opposite `is_reverse` flags, which the
  field-swap definition of `Fragment.reverse_fragment` reflects.
* External collaborators (NetworkX cycle enumeration, Biopython digestion,
  record assembly) are abstracted as parameters: the repository code under
  verification receives their outputs as inputs.
-/

/-- Data of a fragment held by an `AssemblyMix` (file `AssemblyMix.py`):
`key` models the serialization used by `FragmentsCycle.__hash__` and
`FragmentsCycle.standardized`, namely the Python string
`"%s%s%s" % (f.seq.left_end, f.seq, f.seq.right_end)`; `revKey` is the same
serialization for the twin fragment; `length` models `len(f)`; `is_reverse`
is the flag set by `AssemblyMix.compute_reverse_fragments`. -/
structure Fragment where
  key : List Nat
  revKey : List Nat
  length : Nat
  is_reverse : Bool
deriving DecidableEq

/-- Twin fragment, as installed by `AssemblyMix.compute_reverse_fragments`
(lines 169-178 of `AssemblyMix.py`): the serialization keys swap, the length
is unchanged (a reverse complement has the same length) and the
`is_reverse` flag flips. -/
def Fragment.reverse_fragment (f : Fragment) : Fragment :=
  ⟨f.revKey, f.key, f.length, !f.is_reverse⟩

/-- Minimum of a nonempty list under a linear order, modelling Python's
`min(sequences)`; on the empty list Python raises, here we return the
default element (no claim uses the empty case). -/
def listMin {α : Type} [LinearOrder α] [Inhabited α] : List α → α
  | [] => default
  | h :: t => t.foldl min h

namespace FragmentsCycle

/-- Serialization keys of the fragments of a cycle, modelling the list
`sequences` built in `FragmentsCycle.standardized` and
`FragmentsCycle.__hash__`. -/
def keys (c : List Fragment) : List (List Nat) :=
  c.map Fragment.key

/-- Position of the first occurrence of an element, modelling Python's
`list.index`. -/
def pyIndex (x : List Nat) : List (List Nat) → Nat
  | [] => 0
  | h :: t => if h = x then 0 else pyIndex x t + 1

/-- Index of the minimal serialization key, modelling
`sequences.index(min(sequences))`. -/
def idxOfMin (ks : List (List Nat)) : Nat :=
  pyIndex (listMin ks) ks

/-- Reverse complement of a fragments cycle,
`FragmentsCycle.reverse_complement` (lines 24-26 of `AssemblyMix.py`):
`[f.reverse_fragment for f in self.fragments][::-1]`. -/
def reverse_complement (c : List Fragment) : List Fragment :=
  (c.map Fragment.reverse_fragment).reverse

/-- Canonical hash of a cycle, `FragmentsCycle.__hash__` (lines 53-58):
rotate the key list so its (first) minimal element comes first, then hash
the concatenation; the concatenated code-point list stands for the hashed
string. -/
def cycle_hash (c : List Fragment) : List Nat :=
  let sequences := keys c
  let index := idxOfMin sequences
  (sequences.drop index ++ sequences.take index).flatten

/-- Total length of the reverse-flagged fragments of a cycle,
`sum(len(f) for f in self.fragments if f.is_reverse)`. -/
def reverseLen (c : List Fragment) : Nat :=
  ((c.filter (·.is_reverse)).map (·.length)).sum

/-- Total length of a cycle, `sum(len(f) for f in self.fragments)`. -/
def totalLen (c : List Fragment) : Nat :=
  (c.map (·.length)).sum

/-- Canonicalization of a cycle, `FragmentsCycle.standardized`
(lines 36-51 of `AssemblyMix.py`).  The orientation test
`reverse_proportion > 0.5` is rendered as `2 * reverseLen c > totalLen c`,
which is equivalent for the exact rational proportion whenever
`totalLen c > 0` (on a zero-length cycle Python raises).  Note that,
exactly as in the source, the rotation index is computed from the keys of
`self.fragments` (the original orientation) but applied to `std_fragments`
(the possibly reverse-complemented list). -/
def standardized (c : List Fragment) : List Fragment :=
  let std_fragments := if 2 * reverseLen c > totalLen c
    then reverse_complement c else c
  let index := idxOfMin (keys c)
  std_fragments.drop index ++ std_fragments.take index

/-- Equivalence test `FragmentsCycle.is_equivalent_to` (lines 28-34):
compare the stored canonical hashes, and under `consider_reverse` compare
this cycle's hash with the hash of its own reverse complement. -/
def is_equivalent_to (c o : List Fragment) (consider_reverse : Bool) : Bool :=
  if cycle_hash c = cycle_hash o then true
  else if consider_reverse then decide (cycle_hash c = cycle_hash (reverse_complement c))
  else false

end FragmentsCycle

/-- Conjunction of the fragment-set filters over a candidate cycle,
`all(fl(cycle.fragments) for fl in fragments_set_filters)`. -/
def filtersPass (filters : List (List Fragment → Bool)) (frs : List Fragment) : Bool :=
  filters.all (fun fl => fl frs)

/-- Deduplicating generator of `AssemblyMix.compute_circular_fragments_sets`
with `randomize=False` (lines 134-145 of `AssemblyMix.py`).  The stream of
simple cycles produced by `networkx.simple_cycles` on the connections graph
is abstracted as the input list; `seen` is the `seen_hashes` set (a list of
canonical hash values).  Each cycle is standardized; already-seen canonical
hashes are skipped; otherwise the hash is recorded and the standardized
fragments are yielded when every filter passes. -/
def compute_circular_fragments_sets (filters : List (List Fragment → Bool)) :
    List (List Nat) → List (List Fragment) → List (List Fragment)
  | _, [] => []
  | seen, c :: rest =>
    let std := FragmentsCycle.standardized c
    let h := FragmentsCycle.cycle_hash std
    if h ∈ seen then compute_circular_fragments_sets filters seen rest
    else if filtersPass filters std then
      std :: compute_circular_fragments_sets filters (h :: seen) rest
    else compute_circular_fragments_sets filters (h :: seen) rest

/-- Outcome of one pass of the inner `for cycle in nx.simple_cycles(graph)`
loop of the randomized generator (lines 109-133 of `AssemblyMix.py`):
either the staling `ValueError` is raised, or a cycle is yielded (and the
`for` loop is left by `break`), or the enumeration is exhausted. -/
inductive PassOutcome where
  | staled
  | yielded (frs : List Fragment) (seen : List (List Nat))
  | exhausted (seen : List (List Nat))
deriving DecidableEq

/-- One pass of the randomized generator of
`AssemblyMix.compute_circular_fragments_sets` (lines 109-133): `counter`
counts already-seen canonical cycles in this pass, and the staling
`ValueError` is raised as soon as it exceeds `randomization_staling_cutoff`.
A cycle with a fresh canonical hash has its hash recorded; it is yielded
when the filters pass (ending the pass), and otherwise neither increments
nor resets the counter. -/
def randomizedPass (filters : List (List Fragment → Bool)) (cutoff : Nat) :
    List (List Nat) → Nat → List (List Fragment) → PassOutcome
  | seen, _, [] => .exhausted seen
  | seen, counter, c :: rest =>
    let std := FragmentsCycle.standardized c
    let h := FragmentsCycle.cycle_hash std
    if h ∈ seen then
      if counter + 1 > cutoff then .staled
      else randomizedPass filters cutoff seen (counter + 1) rest
    else if filtersPass filters std then .yielded std (h :: seen)
    else randomizedPass filters cutoff (h :: seen) counter rest

/-- Edges contributed by one unordered pair of fragments in
`AssemblyMix.compute_connections_graph` (lines 80-84 of `AssemblyMix.py`):
`f1 -> f2` when they clip in this order, and `f2 -> f1` when they clip in
the other order. -/
def pairEdges {α : Type} (clip : α → α → Bool) (f1 f2 : α) : List (α × α) :=
  (if clip f1 f2 then [(f1, f2)] else []) ++ (if clip f2 f1 then [(f2, f1)] else [])

/-- Edge list produced by iterating `itertools.combinations(all_fragments, 2)`
as in `AssemblyMix.compute_connections_graph`: each unordered pair of
distinct positions is visited exactly once. -/
def combinationEdges {α : Type} (clip : α → α → Bool) : List α → List (α × α)
  | [] => []
  | f :: rest => rest.flatMap (pairEdges clip f) ++ combinationEdges clip rest

/-- Directed connections graph of `AssemblyMix.compute_connections_graph`
(lines 70-84), as its edge list over `all_fragments = self.fragments +
self.reverse_fragments`.  The clip test (`will_clip_in_this_order`, whose
sticky-end comparison lives outside the mix class) is a parameter.  Graph
nodes are the fragment objects; distinct fragments in a mix are distinct
objects, rendered by a `Nodup` hypothesis in the theorems below. -/
def compute_connections_graph {α : Type} (clip : α → α → Bool)
    (fragments reverse_fragments : List α) : List (α × α) :=
  combinationEdges clip (fragments ++ reverse_fragments)

/-- Data of a digestion fragment read by `BASICAssembly.simulate_adapters_assembly`
(file `Assembly/builtin_assembly_classes/BASICAssembly.py`): the code-point
sequences of `str(fragment.seq.left_end)` and `str(fragment.seq.right_end)`
and the `is_reversed` flag. -/
structure BFragment where
  left_end : List Nat
  right_end : List Nat
  is_reversed : Bool
deriving DecidableEq

/-- Test of lines 24-26 of `BASICAssembly.py`:
`max(len(left_end), len(right_end)) > 4`. -/
def isLongOverhang (f : BFragment) : Bool :=
  decide (max f.left_end.length f.right_end.length > 4)

/-- Indices of the fragments with an oversized overhang, modelling the
`adapter_fragments` list collected over `mix.fragments_dict.items()`
(lines 22-27 of `BASICAssembly.py`).  The dictionary, built by mix
machinery outside `src/`, is modelled as a list indexed in insertion
order. -/
def adapterIndices (frags : List BFragment) : List Nat :=
  (List.range frags.length).filter (fun i => isLongOverhang (frags.getD i ⟨[], [], false⟩))

/-- Score of a candidate path, line 42 of `BASICAssembly.py`:
`sum([f.is_reversed for f in fragments])`. -/
def scorePath (p : List BFragment) : Nat :=
  (p.filter (·.is_reversed)).length

/-- Paths collected over `itertools.product(adapter_fragments, repeat=2)`
(lines 36-46 of `BASICAssembly.py`), skipping `end == start`.  The NetworkX
`has_path` / `shortest_path` combination on the mix graph is abstracted as
`finder`, returning the path's fragment list when a path exists. -/
def collectPaths (frags : List BFragment)
    (finder : Nat → Nat → Option (List BFragment)) : List (List BFragment) :=
  (adapterIndices frags).flatMap (fun s =>
    (adapterIndices frags).filterMap (fun e => if e = s then none else finder s e))

/-- Possible results of `BASICAssembly.simulate_adapters_assembly`:
the adapted construct, or — mirroring the source's inconsistent return
shapes — an `AssemblySimulation` object carrying an error (the `!= 4`
branch, lines 28-33), a `(mix, error)` pair (the `!= 2` branch, lines
47-52), or a crash on `sorted` when the two scores tie. -/
inductive AdapterOutcome (κ : Type) where
  | fragment (c : κ)
  | simulationReturn (msg : String)
  | pairReturn (msg : String)
  | compareCrash
deriving DecidableEq

/-- Selection among the collected candidate constructs (lines 47-53 of
`BASICAssembly.py`): if there are not exactly two, return the
`(mix, error)` pair; otherwise `sorted(constructs)[0]` picks the pair with
the smaller score.  Modelled from the spec: the assembled records carry no
ordering of their own, so on a score tie Python's tuple sort falls through
to comparing records and raises; claims below avoid that case. -/
def selectConstruct {κ : Type} (assemble : List BFragment → κ)
    (paths : List (List BFragment)) : AdapterOutcome κ :=
  match paths with
  | [p1, p2] =>
    if scorePath p1 < scorePath p2 then .fragment (assemble p1)
    else if scorePath p2 < scorePath p1 then .fragment (assemble p2)
    else .compareCrash
  | _ => .pairReturn ("Two many possible ligations")

/-- Embedding of `BASICAssembly.simulate_adapters_assembly` (lines 15-56 of
`BASICAssembly.py`).  The digestion of the triplet (performed by mix
machinery outside this function) is received as `frags`; `finder` abstracts
the NetworkX path search on the sub-mix's graph; `assemble` abstracts
`StickyEndFragment.assemble`. -/
def simulate_adapters_assembly {κ : Type} (assemble : List BFragment → κ)
    (frags : List BFragment) (finder : Nat → Nat → Option (List BFragment)) :
    AdapterOutcome κ :=
  if (adapterIndices frags).length ≠ 4 then
    .simulationReturn ("Two many fragments have a long overhang")
  else selectConstruct assemble (collectPaths frags finder)

/-- Consecutive triplets `parts[i : i + 3]` of line 78 of
`BASICAssembly.py`. -/
def tripletsOf {P : Type} : List P → List (List P)
  | [] => []
  | [a] => [[a]]
  | [a, b] => [[a, b]]
  | a :: b :: c :: rest => [a, b, c] :: tripletsOf rest

/-- Result of the per-triplet loop of `BASICAssembly.simulate`
(lines 79-90): every triplet produced an adapted fragment, or the loop
returned early with an `AssemblySimulation` carrying one error, or Python
raised. -/
inductive TripletsResult (κ : Type) where
  | adapted (frs : List κ)
  | earlyReturn (msg : String)
  | crash (msg : String)
deriving DecidableEq

/-- The per-triplet loop of `BASICAssembly.simulate` (lines 79-90):
a `StickyEndFragment` result is collected; a `(mix, error)` pair unpacks
and returns an error simulation.  Modelled from the spec: an
`AssemblySimulation` (the class lives outside `src/`) is per section 6 a
plain record of errors, warnings, records and mixes, not an iterable pair,
so `mix, error = simulation` raises `TypeError` when the sub-stage returns
one — the return-shape inconsistency flagged as the spec's open question. -/
def processTriplets {P κ : Type} (stage : List P → AdapterOutcome κ) :
    List (List P) → TripletsResult κ
  | [] => .adapted []
  | t :: rest =>
    match stage t with
    | .fragment f =>
      match processTriplets stage rest with
      | .adapted fs => .adapted (f :: fs)
      | r => r
    | .simulationReturn _ => .crash ("TypeError: cannot unpack non-iterable AssemblySimulation object")
    | .pairReturn msg => .earlyReturn msg
    | .compareCrash => .crash ("NotImplementedError: SeqRecord comparison")

/-- Result record of `BASICAssembly.simulate`, the parts of an
`AssemblySimulation` the claims are about: the construct records, the
error messages, and how many mixes were passed. -/
structure BasicSim (C : Type) where
  construct_records : List C
  errors : List String
  mixes : Nat
deriving DecidableEq

/-- A run of `BASICAssembly.simulate` either returns a simulation or
raises. -/
inductive SimOutcome (C : Type) where
  | ok (sim : BasicSim C)
  | crash (msg : String)
deriving DecidableEq

/-- Final stage of `BASICAssembly.simulate` (lines 98-121): build the
top-level mix from the adapted fragments, pull at most `max_constructs`
assemblies from the lazy generator (`zip(range(self.max_constructs),
generator)`) and sort them by `str(asm.seq)`.  The generator's output is
abstracted as `circular_assemblies` applied to the adapted fragments, and
`seqStr` gives each record's sequence string.  Modelled from the spec: the
error- and warning-detection helpers of the `Assembly` base class (outside
`src/`) only append flaws to the mutable `errors` and `warnings` lists and
leave `construct_records` unchanged, so they are not tracked here. -/
def assembleStage {κ C : Type} (circular_assemblies : List κ → List C)
    (seqStr : C → List Nat) (max_constructs : Nat) :
    TripletsResult κ → SimOutcome C
  | .crash m => .crash m
  | .earlyReturn msg => .ok ⟨[], [msg], 1⟩
  | .adapted frs =>
    .ok ⟨((circular_assemblies frs).take max_constructs).mergeSort
          (fun a b => decide (seqStr a ≤ seqStr b)), [], 1⟩

/-- Embedding of `BASICAssembly.simulate` (lines 58-121 of
`BASICAssembly.py`): the multiple-of-three guard, the per-triplet adapter
stage, and the final combinatorial stage. -/
def simulateBASIC {P κ C : Type} (stage : List P → AdapterOutcome κ)
    (circular_assemblies : List κ → List C) (seqStr : C → List Nat)
    (max_constructs : Nat) (parts : List P) : SimOutcome C :=
  if parts.length % 3 ≠ 0 then
    .ok ⟨[], ["The number of parts for BASIC assembly should bea multiple of 3"], 0⟩
  else
    assembleStage circular_assemblies seqStr max_constructs
      (processTriplets stage (tripletsOf parts))

/-! Concrete fragments and parameters used as inputs of the witnesses and
counterexamples below.  Keys are code-point sequences: `[97]` is the
serialization string `a`, `[98]` is `b`, and so on; each fragment's twin
carries the twin's own serialization. -/

/-- Forward fragment of length 1 whose serialization is `a` and whose twin
serializes as `c`. -/
def frA : Fragment := ⟨[97], [99], 1, false⟩

/-- Reverse fragment of length 1 whose serialization is `b` and whose twin
serializes as `d`. -/
def frB : Fragment := ⟨[98], [100], 1, true⟩

/-- Forward fragment of length 1 whose serialization is `b`. -/
def frC : Fragment := ⟨[98], [100], 1, false⟩

/-- Forward fragment of length 1 whose serialization is `c`. -/
def frD : Fragment := ⟨[99], [97], 1, false⟩

/-- Reverse fragment of length 1 whose serialization is `a`. -/
def gA : Fragment := ⟨[97], [99], 1, true⟩

/-- Reverse fragment of length 1 whose serialization is `b` (twin key `d`). -/
def gB : Fragment := ⟨[98], [100], 1, true⟩

/-- Clip predicate under which every ordered pair of fragments ligates,
including every fragment with itself. -/
def clipAlways : Nat → Nat → Bool := fun _ _ => true

/-- Digestion fragment whose two overhangs have length 1, hence below the
canonical enzyme overhang length 4. -/
def bShort : BFragment := ⟨[65], [66], false⟩

/-- Digestion fragment whose left overhang has length 5, exceeding the
canonical enzyme overhang length 4. -/
def bLong : BFragment := ⟨[65, 65, 65, 65, 65], [66], false⟩

/-- Reverse-oriented digestion fragment. -/
def bRev : BFragment := ⟨[65], [66], true⟩

/-- Path oracle producing exactly two paths, one from adapter 0 to
adapter 1 containing one reverse-oriented fragment, and one from adapter 1
to adapter 0 containing none. -/
def finderTwo : Nat → Nat → Option (List BFragment) :=
  fun s e =>
    if s == 0 && e == 1 then some [bRev]
    else if s == 1 && e == 0 then some [bLong]
    else none

/-! Helper lemmas about list minima, rotations and the cycle measures. -/

theorem foldl_min_mem {α : Type} [LinearOrder α] (t : List α) (h : α) :
    t.foldl min h ∈ h :: t := by
  induction t generalizing h with
  | nil => simp
  | cons x t ih =>
    rw [List.foldl_cons]
    rcases List.mem_cons.1 (ih (min h x)) with h1 | h1
    · rcases min_choice h x with hc | hc
      · rw [h1, hc]; exact List.mem_cons_self _ _
      · rw [h1, hc]; exact List.mem_cons_of_mem _ (List.mem_cons_self _ _)
    · exact List.mem_cons_of_mem _ (List.mem_cons_of_mem _ h1)

theorem foldl_min_le {α : Type} [LinearOrder α] (t : List α) (h : α) :
    t.foldl min h ≤ h ∧ ∀ x ∈ t, t.foldl min h ≤ x := by
  induction t generalizing h with
  | nil => simp
  | cons x t ih =>
    rw [List.foldl_cons]
    obtain ⟨ih1, ih2⟩ := ih (min h x)
    refine ⟨le_trans ih1 (min_le_left _ _), ?_⟩
    intro y hy
    rcases List.mem_cons.1 hy with rfl | hy
    · exact le_trans ih1 (min_le_right _ _)
    · exact ih2 y hy

theorem listMin_mem {α : Type} [LinearOrder α] [Inhabited α] {l : List α} (h : l ≠ []) :
    listMin l ∈ l := by
  cases l with
  | nil => exact absurd rfl h
  | cons a t => exact foldl_min_mem t a

theorem listMin_le {α : Type} [LinearOrder α] [Inhabited α] {l : List α} :
    ∀ x ∈ l, listMin l ≤ x := by
  cases l with
  | nil => intro x hx; exact absurd hx (List.not_mem_nil x)
  | cons a t =>
    intro x hx
    rcases List.mem_cons.1 hx with rfl | hx
    · exact (foldl_min_le t _).1
    · exact (foldl_min_le t a).2 x hx

theorem listMin_congr_mem {α : Type} [LinearOrder α] [Inhabited α] {l l' : List α}
    (hl : l ≠ []) (hl' : l' ≠ []) (hmem : ∀ x, x ∈ l ↔ x ∈ l') :
    listMin l = listMin l' :=
  le_antisymm (listMin_le _ ((hmem _).2 (listMin_mem hl')))
    (listMin_le _ ((hmem _).1 (listMin_mem hl)))

theorem mem_rot_iff {α : Type} {l : List α} {i : Nat} {x : α} :
    x ∈ l.drop i ++ l.take i ↔ x ∈ l := by
  rw [List.mem_append, or_comm, ← List.mem_append, List.take_append_drop]

theorem rot_ne_nil {α : Type} {l : List α} (h : l ≠ []) (i : Nat) :
    l.drop i ++ l.take i ≠ [] := by
  intro heq
  rcases List.append_eq_nil.1 heq with ⟨h1, h2⟩
  apply h
  rw [← List.take_append_drop i l, h1, h2]
  rfl

theorem listMin_rot {α : Type} [LinearOrder α] [Inhabited α] (l : List α) (i : Nat)
    (h : l ≠ []) : listMin (l.drop i ++ l.take i) = listMin l :=
  listMin_congr_mem (rot_ne_nil h i) h (fun _ => mem_rot_iff)

namespace FragmentsCycle

theorem pyIndex_lt_length {x : List Nat} {ks : List (List Nat)} (h : x ∈ ks) :
    pyIndex x ks < ks.length := by
  induction ks with
  | nil => exact absurd h (List.not_mem_nil x)
  | cons a t ih =>
    by_cases ha : a = x
    · simp [pyIndex, ha]
    · rcases List.mem_cons.1 h with rfl | hx
      · exact absurd rfl ha
      · simp only [pyIndex, if_neg ha, List.length_cons]
        exact Nat.succ_lt_succ (ih hx)

theorem drop_pyIndex {x : List Nat} {ks : List (List Nat)} (h : x ∈ ks) :
    ks.drop (pyIndex x ks) = x :: ks.drop (pyIndex x ks + 1) := by
  induction ks with
  | nil => exact absurd h (List.not_mem_nil x)
  | cons a t ih =>
    by_cases ha : a = x
    · simp [pyIndex, ha]
    · rcases List.mem_cons.1 h with rfl | hx
      · exact absurd rfl ha
      · simp only [pyIndex, if_neg ha, List.drop_succ_cons]
        exact ih hx

theorem idxOfMin_lt_length {ks : List (List Nat)} (h : ks ≠ []) :
    idxOfMin ks < ks.length :=
  pyIndex_lt_length (listMin_mem h)

theorem idxOfMin_cons_of_min {m : List Nat} {rest : List (List Nat)}
    (hmin : listMin (m :: rest) = m) : idxOfMin (m :: rest) = 0 := by
  unfold idxOfMin
  rw [hmin]
  simp [pyIndex]

theorem idxOfMin_rot_eq_zero {ks : List (List Nat)} (h : ks ≠ []) :
    idxOfMin (ks.drop (idxOfMin ks) ++ ks.take (idxOfMin ks)) = 0 := by
  have hdrop : ks.drop (idxOfMin ks)
      = listMin ks :: ks.drop (idxOfMin ks + 1) := drop_pyIndex (listMin_mem h)
  have hmin : listMin (ks.drop (idxOfMin ks) ++ ks.take (idxOfMin ks)) = listMin ks :=
    listMin_rot ks (idxOfMin ks) h
  have hrot : ks.drop (idxOfMin ks) ++ ks.take (idxOfMin ks)
      = listMin ks :: (ks.drop (idxOfMin ks + 1) ++ ks.take (idxOfMin ks)) := by
    rw [hdrop, List.cons_append]
  rw [hrot]
  exact idxOfMin_cons_of_min (by rw [← hrot]; exact hmin)

theorem totalLen_append (a b : List Fragment) :
    totalLen (a ++ b) = totalLen a + totalLen b := by
  simp [totalLen]

theorem reverseLen_append (a b : List Fragment) :
    reverseLen (a ++ b) = reverseLen a + reverseLen b := by
  simp [reverseLen]

theorem totalLen_rot (l : List Fragment) (i : Nat) :
    totalLen (l.drop i ++ l.take i) = totalLen l := by
  rw [totalLen_append, Nat.add_comm, ← totalLen_append, List.take_append_drop]

theorem reverseLen_rot (l : List Fragment) (i : Nat) :
    reverseLen (l.drop i ++ l.take i) = reverseLen l := by
  rw [reverseLen_append, Nat.add_comm, ← reverseLen_append, List.take_append_drop]

end FragmentsCycle

theorem Fragment.reverse_fragment_involutive (f : Fragment) :
    f.reverse_fragment.reverse_fragment = f := by
  cases f
  simp [Fragment.reverse_fragment]

namespace FragmentsCycle

theorem reverse_complement_involutive (c : List Fragment) :
    reverse_complement (reverse_complement c) = c := by
  simp [reverse_complement, List.map_reverse, List.map_map, Function.comp_def,
    Fragment.reverse_fragment_involutive]

theorem length_reverse_complement (c : List Fragment) :
    (reverse_complement c).length = c.length := by
  simp [reverse_complement]

theorem totalLen_reverse_complement (c : List Fragment) :
    totalLen (reverse_complement c) = totalLen c := by
  simp [totalLen, reverse_complement, List.map_reverse, List.map_map,
    Function.comp_def, Fragment.reverse_fragment, List.sum_reverse]

theorem reverseLen_add_eq (c : List Fragment) :
    reverseLen c + ((c.filter (fun f => !f.is_reverse)).map (·.length)).sum = totalLen c := by
  induction c with
  | nil => simp [reverseLen, totalLen]
  | cons f t ih =>
    by_cases hf : f.is_reverse <;>
      simp [reverseLen, totalLen, List.filter_cons, hf] at ih ⊢ <;>
      omega

theorem reverseLen_reverse_complement (c : List Fragment) :
    reverseLen (reverse_complement c) + reverseLen c = totalLen c := by
  have h1 : reverseLen (reverse_complement c)
      = ((c.filter (fun f => !f.is_reverse)).map (·.length)).sum := by
    simp [reverseLen, reverse_complement, List.filter_reverse, List.filter_map,
      Function.comp_def, List.map_reverse, List.map_map, Fragment.reverse_fragment,
      List.sum_reverse]
  rw [h1, Nat.add_comm]
  exact reverseLen_add_eq c

theorem standardized_of_le {c : List Fragment} (h : ¬ 2 * reverseLen c > totalLen c) :
    standardized c = c.drop (idxOfMin (keys c)) ++ c.take (idxOfMin (keys c)) := by
  simp [standardized, h]

theorem standardized_of_gt {c : List Fragment} (h : 2 * reverseLen c > totalLen c) :
    standardized c = (reverse_complement c).drop (idxOfMin (keys c))
      ++ (reverse_complement c).take (idxOfMin (keys c)) := by
  simp [standardized, h]

end FragmentsCycle

namespace FragmentsCycle

theorem keys_rot (c : List Fragment) (i : Nat) :
    keys (c.drop i ++ c.take i) = (keys c).drop i ++ (keys c).take i := by
  simp [keys, List.map_append, List.map_drop, List.map_take]

theorem keys_ne_nil {c : List Fragment} (h : c ≠ []) : keys c ≠ [] := by
  simp [keys, h]

/-- C4 (amended): `FragmentsCycle.standardized` is idempotent on every
nonempty cycle whose reverse-flagged length is at most half of the total
length, i.e. whenever the orientation step does not flip the cycle.  (When
it does flip, the rotation index is computed from the pre-flip keys, and a
second application can rotate the result again: see the counterexample.) -/
theorem standardized_idempotent (c : List Fragment) (hne : c ≠ [])
    (hle : 2 * reverseLen c ≤ totalLen c) :
    standardized (standardized c) = standardized c := by
  have hcond : ¬ 2 * reverseLen c > totalLen c := not_lt.2 hle
  have hstd : standardized c = c.drop (idxOfMin (keys c)) ++ c.take (idxOfMin (keys c)) :=
    standardized_of_le hcond
  have hsne : standardized c ≠ [] := by rw [hstd]; exact rot_ne_nil hne _
  have hrev : reverseLen (standardized c) = reverseLen c := by rw [hstd]; exact reverseLen_rot c _
  have htot : totalLen (standardized c) = totalLen c := by rw [hstd]; exact totalLen_rot c _
  have hcond2 : ¬ 2 * reverseLen (standardized c) > totalLen (standardized c) := by
    rw [hrev, htot]; exact hcond
  have hizero : idxOfMin (keys (standardized c)) = 0 := by
    rw [hstd, keys_rot]
    exact idxOfMin_rot_eq_zero (keys_ne_nil hne)
  rw [standardized_of_le hcond2, hizero]
  simp

/-- C3 (amended): on every nonempty cycle whose reverse-flagged length is
not exactly half of the total length, standardizing the reverse complement
yields a rotation of the standardized cycle — the same fragments in the
same cyclic order, though possibly starting elsewhere (and hence possibly
a different canonical key), because the rotation index is computed from
the pre-orientation keys. -/
theorem standardized_reverse_complement_isRotated (c : List Fragment) (hne : c ≠ [])
    (hneq : 2 * reverseLen c ≠ totalLen c) :
    List.IsRotated (standardized (reverse_complement c)) (standardized c) := by
  have hsum := reverseLen_reverse_complement c
  have htot := totalLen_reverse_complement c
  have hlen := length_reverse_complement c
  have hrcne : reverse_complement c ≠ [] := by
    intro h0
    apply hne
    have hl := congrArg List.length h0
    rw [hlen] at hl
    exact List.length_eq_zero.1 hl
  have hilt : idxOfMin (keys c) ≤ c.length := by
    have h1 : idxOfMin (keys c) < (keys c).length := idxOfMin_lt_length (keys_ne_nil hne)
    simp only [keys, List.length_map] at h1
    exact le_of_lt h1
  have hjlt : idxOfMin (keys (reverse_complement c)) ≤ (reverse_complement c).length := by
    have h1 : idxOfMin (keys (reverse_complement c)) < (keys (reverse_complement c)).length :=
      idxOfMin_lt_length (keys_ne_nil hrcne)
    simp only [keys, List.length_map] at h1
    exact le_of_lt h1
  rcases Nat.lt_or_ge (2 * reverseLen c) (totalLen c) with hlt | hge
  · have h1 : standardized c = c.drop (idxOfMin (keys c)) ++ c.take (idxOfMin (keys c)) :=
      standardized_of_le (not_lt.2 (le_of_lt hlt))
    have hcond : 2 * reverseLen (reverse_complement c) > totalLen (reverse_complement c) := by
      rw [htot]; omega
    have h2 : standardized (reverse_complement c)
        = c.drop (idxOfMin (keys (reverse_complement c)))
          ++ c.take (idxOfMin (keys (reverse_complement c))) := by
      rw [standardized_of_gt hcond, reverse_complement_involutive]
    rw [h1, h2, ← List.rotate_eq_drop_append_take (hlen ▸ hjlt),
      ← List.rotate_eq_drop_append_take hilt]
    exact List.IsRotated.trans
      (List.IsRotated.symm ⟨idxOfMin (keys (reverse_complement c)), rfl⟩)
      ⟨idxOfMin (keys c), rfl⟩
  · have hgt : 2 * reverseLen c > totalLen c := by omega
    have h1 : standardized c
        = (reverse_complement c).drop (idxOfMin (keys c))
          ++ (reverse_complement c).take (idxOfMin (keys c)) :=
      standardized_of_gt hgt
    have hcond : ¬ 2 * reverseLen (reverse_complement c) > totalLen (reverse_complement c) := by
      rw [htot]; omega
    have h2 : standardized (reverse_complement c)
        = (reverse_complement c).drop (idxOfMin (keys (reverse_complement c)))
          ++ (reverse_complement c).take (idxOfMin (keys (reverse_complement c))) :=
      standardized_of_le hcond
    rw [h1, h2, ← List.rotate_eq_drop_append_take hjlt,
      ← List.rotate_eq_drop_append_take (hlen.symm ▸ hilt)]
    exact List.IsRotated.trans
      (List.IsRotated.symm ⟨idxOfMin (keys (reverse_complement c)), rfl⟩)
      ⟨idxOfMin (keys c), rfl⟩

end FragmentsCycle

theorem compute_sets_hash_invariant (filters : List (List Fragment → Bool)) :
    ∀ (stream : List (List Fragment)) (seen : List (List Nat)),
      ((compute_circular_fragments_sets filters seen stream).map FragmentsCycle.cycle_hash).Nodup ∧
      ∀ h ∈ (compute_circular_fragments_sets filters seen stream).map FragmentsCycle.cycle_hash,
        h ∉ seen := by
  intro stream
  induction stream with
  | nil =>
    intro seen
    simp [compute_circular_fragments_sets]
  | cons c rest ih =>
    intro seen
    by_cases hmem : FragmentsCycle.cycle_hash (FragmentsCycle.standardized c) ∈ seen
    · have heq : compute_circular_fragments_sets filters seen (c :: rest)
          = compute_circular_fragments_sets filters seen rest := by
        simp [compute_circular_fragments_sets, hmem]
      rw [heq]
      exact ih seen
    · by_cases hfil : filtersPass filters (FragmentsCycle.standardized c) = true
      · have heq : compute_circular_fragments_sets filters seen (c :: rest)
            = FragmentsCycle.standardized c ::
              compute_circular_fragments_sets filters
                (FragmentsCycle.cycle_hash (FragmentsCycle.standardized c) :: seen) rest := by
          simp [compute_circular_fragments_sets, hmem, hfil]
        rw [heq]
        obtain ⟨ihnd, ihfresh⟩ :=
          ih (FragmentsCycle.cycle_hash (FragmentsCycle.standardized c) :: seen)
        constructor
        · rw [List.map_cons, List.nodup_cons]
          refine ⟨fun hdup => ?_, ihnd⟩
          exact (ihfresh _ hdup) (List.mem_cons_self _ _)
        · intro x hx
          rcases List.mem_cons.1 (List.map_cons FragmentsCycle.cycle_hash _ _ ▸ hx) with hxc | hxrest
          · rw [hxc]; exact hmem
          · intro hxseen
            exact (ihfresh _ hxrest) (List.mem_cons_of_mem _ hxseen)
      · have heq : compute_circular_fragments_sets filters seen (c :: rest)
            = compute_circular_fragments_sets filters
                (FragmentsCycle.cycle_hash (FragmentsCycle.standardized c) :: seen) rest := by
          simp [compute_circular_fragments_sets, hmem, hfil]
        rw [heq]
        obtain ⟨ihnd, ihfresh⟩ :=
          ih (FragmentsCycle.cycle_hash (FragmentsCycle.standardized c) :: seen)
        exact ⟨ihnd, fun x hx hxseen => (ihfresh x hx) (List.mem_cons_of_mem _ hxseen)⟩

/-- C2 (amended): with `randomize=False`, any two distinct cycles yielded
by `compute_circular_fragments_sets` have distinct canonical hashes — each
canonical hash is reported at most once.  This does not separate the full
rotation / reverse-complement equivalence classes: two equivalent cycles
can carry different canonical hashes (for instance when the reverse-flagged
length is exactly half of the total length, so neither orientation is
flipped), and then both are yielded, as the counterexample shows. -/
theorem compute_sets_yields_distinct_hashes (filters : List (List Fragment → Bool))
    (stream : List (List Fragment)) :
    ((compute_circular_fragments_sets filters [] stream).map FragmentsCycle.cycle_hash).Nodup :=
  (compute_sets_hash_invariant filters stream []).1

/-- C2 is false as stated: the cycle `[frA, frB]` (one forward, one reverse
fragment of equal length) and its reverse complement survive deduplication
together — both are yielded, yet the second is exactly the reverse
complement of the first rotated by one, i.e. they describe the same
biological outcome. -/
theorem compute_sets_equivalent_pair_counterexample :
    compute_circular_fragments_sets [] []
        [[frA, frB], FragmentsCycle.reverse_complement [frA, frB]] =
      [[frA, frB], [⟨[99], [97], 1, true⟩, ⟨[100], [98], 1, false⟩]] ∧
    ([frA, frB] : List Fragment) ≠ [⟨[99], [97], 1, true⟩, ⟨[100], [98], 1, false⟩] ∧
    (FragmentsCycle.reverse_complement [frA, frB]).rotate 1 =
      [⟨[99], [97], 1, true⟩, ⟨[100], [98], 1, false⟩] := by
  refine ⟨by decide, by decide, by decide⟩

/-- C4 is false as stated: on the all-reverse two-fragment cycle
`[gA, gB]` the orientation step flips the cycle but the rotation index is
taken from the pre-flip keys, so a second standardization rotates the
result again. -/
theorem standardized_idempotent_counterexample :
    FragmentsCycle.standardized (FragmentsCycle.standardized [gA, gB]) ≠
      FragmentsCycle.standardized [gA, gB] := by
  decide

theorem standardized_idempotent_witness :
    ([frA] : List Fragment) ≠ [] ∧
    2 * FragmentsCycle.reverseLen [frA] ≤ FragmentsCycle.totalLen [frA] ∧
    FragmentsCycle.standardized (FragmentsCycle.standardized [frA]) =
      FragmentsCycle.standardized [frA] :=
  ⟨by decide, by decide, FragmentsCycle.standardized_idempotent [frA] (by decide) (by decide)⟩

/-- C3 is false as stated: on the cycle `[frA, frB]`, whose reverse-flagged
length is exactly half of the total length, standardizing the reverse
complement returns the reverse-complement fragments — a different fragment
list with a different canonical hash than the standardized original. -/
theorem standardized_reverse_complement_counterexample :
    FragmentsCycle.standardized (FragmentsCycle.reverse_complement [frA, frB]) ≠
      FragmentsCycle.standardized [frA, frB] ∧
    FragmentsCycle.cycle_hash
        (FragmentsCycle.standardized (FragmentsCycle.reverse_complement [frA, frB])) ≠
      FragmentsCycle.cycle_hash (FragmentsCycle.standardized [frA, frB]) := by
  refine ⟨by decide, by decide⟩

theorem standardized_reverse_complement_witness :
    ([frA, frC] : List Fragment) ≠ [] ∧
    2 * FragmentsCycle.reverseLen [frA, frC] ≠ FragmentsCycle.totalLen [frA, frC] ∧
    List.IsRotated
      (FragmentsCycle.standardized (FragmentsCycle.reverse_complement [frA, frC]))
      (FragmentsCycle.standardized [frA, frC]) :=
  ⟨by decide, by decide,
    FragmentsCycle.standardized_reverse_complement_isRotated [frA, frC] (by decide) (by decide)⟩

theorem randomizedPass_staled_iff_aux (cutoff : Nat) :
    ∀ (stream : List (List Fragment)) (seen : List (List Nat)) (k : Nat), k ≤ cutoff →
      (randomizedPass [] cutoff seen k stream = .staled ↔
        (cutoff + 1 - k ≤ stream.length ∧
          ∀ c ∈ stream.take (cutoff + 1 - k),
            FragmentsCycle.cycle_hash (FragmentsCycle.standardized c) ∈ seen)) := by
  intro stream
  induction stream with
  | nil =>
    intro seen k hk
    constructor
    · intro h
      exact absurd h (by simp [randomizedPass])
    · rintro ⟨h1, _⟩
      simp only [List.length_nil] at h1
      omega
  | cons c rest ih =>
    intro seen k hk
    by_cases hdup : FragmentsCycle.cycle_hash (FragmentsCycle.standardized c) ∈ seen
    · by_cases hcut : k + 1 > cutoff
      · have hkc : k = cutoff := by omega
        have heq : randomizedPass [] cutoff seen k (c :: rest) = .staled := by
          simp [randomizedPass, hdup, hcut]
        rw [heq]
        have h1 : cutoff + 1 - k = 1 := by omega
        rw [h1]
        simp [hdup]
      · have heq : randomizedPass [] cutoff seen k (c :: rest)
            = randomizedPass [] cutoff seen (k + 1) rest := by
          simp [randomizedPass, hdup, hcut]
        rw [heq, ih seen (k + 1) (by omega)]
        have h1 : cutoff + 1 - k = (cutoff + 1 - (k + 1)) + 1 := by omega
        rw [h1, List.take_succ_cons]
        simp only [List.length_cons, List.forall_mem_cons, hdup, true_and]
        rw [Nat.add_le_add_iff_right]
    · have heq : randomizedPass [] cutoff seen k (c :: rest)
          = .yielded (FragmentsCycle.standardized c)
              (FragmentsCycle.cycle_hash (FragmentsCycle.standardized c) :: seen) := by
        simp [randomizedPass, hdup, filtersPass]
      rw [heq]
      constructor
      · intro h
        exact absurd h (by simp)
      · rintro ⟨h1, h2⟩
        have h3 : cutoff + 1 - k = (cutoff - k) + 1 := by omega
        rw [h3, List.take_succ_cons] at h2
        exact absurd (h2 c (List.mem_cons_self _ _)) hdup

/-- C5 (amended): with no fragment-set filters installed (the default), a
pass of the randomized generator raises the staling error iff its first
`cutoff + 1` cycles all have already-seen canonical hashes: the error comes
only after strictly more than `cutoff` consecutive duplicates, and any new
canonical cycle ends the pass by yielding, resetting the counter.  When a
fragments-set filter rejects a new canonical cycle, however, the cycle
neither increments nor resets the counter, so duplicates separated by such
a cycle still accumulate toward the cutoff: see the counterexample. -/
theorem randomizedPass_staling_iff (cutoff : Nat) (seen : List (List Nat))
    (stream : List (List Fragment)) :
    randomizedPass [] cutoff seen 0 stream = .staled ↔
      (cutoff + 1 ≤ stream.length ∧
        ∀ c ∈ stream.take (cutoff + 1),
          FragmentsCycle.cycle_hash (FragmentsCycle.standardized c) ∈ seen) := by
  have h := randomizedPass_staled_iff_aux cutoff stream seen 0 (Nat.zero_le _)
  simpa using h

/-- C5 is false as stated: with a rejecting filter, a cutoff of 1, and the
stream duplicate / new / duplicate, the two duplicates are separated by a
new canonical cycle (so at most one consecutive duplicate ever occurs),
yet the pass stales, because the filtered-out new cycle does not reset the
counter. -/
theorem randomizedPass_separated_duplicates_counterexample :
    randomizedPass [fun _ => false] 1 [[97]] 0 [[frA], [frC], [frA]] = .staled ∧
    FragmentsCycle.cycle_hash (FragmentsCycle.standardized [frC]) ∉ ([[97]] : List (List Nat)) ∧
    FragmentsCycle.cycle_hash (FragmentsCycle.standardized [frA]) ∈ ([[97]] : List (List Nat)) := by
  refine ⟨by decide, by decide, by decide⟩

/-- C10: when the stored hashes of the two cycles differ and
`consider_reverse` is set, `FragmentsCycle.is_equivalent_to` ignores the
other cycle entirely: its value is the same for any other cycle of
different hash, and it is `true` exactly when the cycle's hash equals the
hash of its own reverse complement. -/
theorem is_equivalent_to_ignores_other (c o o' : List Fragment)
    (h : FragmentsCycle.cycle_hash c ≠ FragmentsCycle.cycle_hash o)
    (h' : FragmentsCycle.cycle_hash c ≠ FragmentsCycle.cycle_hash o') :
    FragmentsCycle.is_equivalent_to c o true = FragmentsCycle.is_equivalent_to c o' true ∧
      (FragmentsCycle.is_equivalent_to c o true = true ↔
        FragmentsCycle.cycle_hash c =
          FragmentsCycle.cycle_hash (FragmentsCycle.reverse_complement c)) := by
  unfold FragmentsCycle.is_equivalent_to
  rw [if_neg h, if_neg h']
  simp

theorem is_equivalent_to_ignores_other_witness :
    FragmentsCycle.cycle_hash [frA] ≠ FragmentsCycle.cycle_hash [frC] ∧
    FragmentsCycle.cycle_hash [frA] ≠ FragmentsCycle.cycle_hash [frD] ∧
    (FragmentsCycle.is_equivalent_to [frA] [frC] true =
        FragmentsCycle.is_equivalent_to [frA] [frD] true ∧
      (FragmentsCycle.is_equivalent_to [frA] [frC] true = true ↔
        FragmentsCycle.cycle_hash [frA] =
          FragmentsCycle.cycle_hash (FragmentsCycle.reverse_complement [frA]))) :=
  ⟨by decide, by decide,
    is_equivalent_to_ignores_other [frA] [frC] [frD] (by decide) (by decide)⟩

theorem mem_pairEdges {α : Type} {clip : α → α → Bool} {u v : α} {e : α × α} :
    e ∈ pairEdges clip u v ↔
      ((e = (u, v) ∧ clip u v = true) ∨ (e = (v, u) ∧ clip v u = true)) := by
  unfold pairEdges
  by_cases h1 : clip u v = true <;> by_cases h2 : clip v u = true <;>
    simp [h1, h2]

theorem mem_combinationEdges {α : Type} (clip : α → α → Bool) :
    ∀ (l : List α), l.Nodup → ∀ a b : α,
      ((a, b) ∈ combinationEdges clip l ↔
        (a ∈ l ∧ b ∈ l ∧ a ≠ b ∧ clip a b = true)) := by
  intro l
  induction l with
  | nil =>
    intro _ a b
    simp [combinationEdges]
  | cons f rest ih =>
    intro hnd a b
    obtain ⟨hf, hnd'⟩ := List.nodup_cons.1 hnd
    rw [combinationEdges, List.mem_append]
    constructor
    · rintro (hmem | hmem)
      · obtain ⟨g, hg, hpe⟩ := List.mem_flatMap.1 hmem
        rcases mem_pairEdges.1 hpe with ⟨heq, hclip⟩ | ⟨heq, hclip⟩
        · rw [Prod.mk.injEq] at heq
          obtain ⟨rfl, rfl⟩ := heq
          exact ⟨List.mem_cons_self _ _, List.mem_cons_of_mem _ hg,
            fun hab => hf (hab ▸ hg), hclip⟩
        · rw [Prod.mk.injEq] at heq
          obtain ⟨rfl, rfl⟩ := heq
          exact ⟨List.mem_cons_of_mem _ hg, List.mem_cons_self _ _,
            fun hab => hf (hab ▸ hg), hclip⟩
      · obtain ⟨ha, hb, hab, hclip⟩ := (ih hnd' a b).1 hmem
        exact ⟨List.mem_cons_of_mem _ ha, List.mem_cons_of_mem _ hb, hab, hclip⟩
    · rintro ⟨ha, hb, hab, hclip⟩
      rcases List.mem_cons.1 ha with rfl | ha' <;> rcases List.mem_cons.1 hb with rfl | hb'
      · exact absurd rfl hab
      · exact Or.inl (List.mem_flatMap.2
          ⟨b, hb', mem_pairEdges.2 (Or.inl ⟨rfl, hclip⟩)⟩)
      · exact Or.inl (List.mem_flatMap.2
          ⟨a, ha', mem_pairEdges.2 (Or.inr ⟨rfl, hclip⟩)⟩)
      · exact Or.inr ((ih hnd' a b).2 ⟨ha', hb', hab, hclip⟩)

/-- C1 (amended): in the connections graph built over the forward and
reverse fragment lists (distinct objects, rendered by `Nodup`), the edge
`a -> b` is present iff `a` and `b` are distinct fragments of the mix and
`will_clip_in_this_order(a, b)` holds.  The self-pair case is never
examined — `itertools.combinations` enumerates only unordered pairs of
distinct positions — so a self-loop is never added, even for a fragment
that ligates with itself (see the counterexample). -/
theorem connections_graph_edge_iff {α : Type} (clip : α → α → Bool)
    (fragments reverse_fragments : List α)
    (hnd : (fragments ++ reverse_fragments).Nodup) (a b : α) :
    ((a, b) ∈ compute_connections_graph clip fragments reverse_fragments ↔
      (a ∈ fragments ++ reverse_fragments ∧ b ∈ fragments ++ reverse_fragments ∧
        a ≠ b ∧ clip a b = true)) :=
  mem_combinationEdges clip _ hnd a b

theorem connections_graph_edge_iff_witness :
    (([0, 1] : List Nat) ++ [2, 3]).Nodup ∧
    (((0, 1) ∈ compute_connections_graph clipAlways [0, 1] [2, 3]) ↔
      ((0 : Nat) ∈ [0, 1] ++ [2, 3] ∧ (1 : Nat) ∈ [0, 1] ++ [2, 3] ∧
        (0 : Nat) ≠ 1 ∧ clipAlways 0 1 = true)) :=
  ⟨by decide, connections_graph_edge_iff clipAlways [0, 1] [2, 3] (by decide) 0 1⟩

/-- C1 is false as stated: under a clip rule by which every fragment
ligates with itself, the graph built from one forward fragment `0` and its
reverse fragment `1` contains no self-loop `0 -> 0`, although
`will_clip_in_this_order(0, 0)` holds; the cross edges are present. -/
theorem connections_graph_selfloop_counterexample :
    clipAlways 0 0 = true ∧
    ((0, 0) ∉ compute_connections_graph clipAlways [0] [1]) ∧
    ((0, 1) ∈ compute_connections_graph clipAlways [0] [1]) := by
  refine ⟨by decide, by decide, by decide⟩

/-- C6: the code contradicts the intended error report.  On a triplet whose
digestion yields a number of long-overhang fragments different from 4
(here: none), `simulate_adapters_assembly` returns an `AssemblySimulation`
carrying the flaw, and `simulate` then tuple-unpacks that object as
`mix, error = simulation`, raising a `TypeError` instead of returning a
simulation that carries the "too many long overhangs" flaw. -/
theorem simulateBASIC_long_overhang_crash :
    simulate_adapters_assembly (fun p => p) [bShort] (fun _ _ => none) =
      .simulationReturn ("Two many fragments have a long overhang") ∧
    simulateBASIC
        (fun (_ : List Nat) => simulate_adapters_assembly (fun p => p) [bShort] (fun _ _ => none))
        (fun (_ : List (List BFragment)) => ([] : List (List Nat))) (fun s => s) 40 [1, 2, 3] =
      .crash ("TypeError: cannot unpack non-iterable AssemblySimulation object") := by
  refine ⟨by decide, by decide⟩

/-- C7: on a parts list whose length is not a multiple of three,
`BASICAssembly.simulate` returns up front a simulation whose single error
states that the part count must be a multiple of 3 (the source emits the
two adjacent string literals without a separating space), with no
construct records and no mixes. -/
theorem simulateBASIC_not_multiple_of_three {P κ C : Type}
    (stage : List P → AdapterOutcome κ) (circular_assemblies : List κ → List C)
    (seqStr : C → List Nat) (max_constructs : Nat) (parts : List P)
    (h : parts.length % 3 ≠ 0) :
    simulateBASIC stage circular_assemblies seqStr max_constructs parts =
      .ok ⟨[], ["The number of parts for BASIC assembly should bea multiple of 3"], 0⟩ := by
  unfold simulateBASIC
  rw [if_pos h]

theorem simulateBASIC_not_multiple_of_three_witness :
    (([7] : List Nat).length % 3 ≠ 0) ∧
    simulateBASIC (fun (_ : List Nat) => AdapterOutcome.fragment (0 : Nat))
        (fun (_ : List Nat) => ([] : List (List Nat))) (fun s => s) 40 [7] =
      .ok ⟨[], ["The number of parts for BASIC assembly should bea multiple of 3"], 0⟩ :=
  ⟨by decide, simulateBASIC_not_multiple_of_three _ _ _ _ _ (by decide)⟩

/-- C8: when exactly 4 long-overhang fragments are present and the path
search yields exactly two candidate paths with different reverse-oriented
counts, `simulate_adapters_assembly` returns the assembly of the path with
the fewest reverse-oriented fragments. -/
theorem selectConstruct_pair {κ : Type} (assemble : List BFragment → κ)
    (p1 p2 : List BFragment) :
    selectConstruct assemble [p1, p2] =
      if scorePath p1 < scorePath p2 then .fragment (assemble p1)
      else if scorePath p2 < scorePath p1 then .fragment (assemble p2)
      else .compareCrash := rfl

theorem adapters_assembly_min_score {κ : Type} (assemble : List BFragment → κ)
    (frags : List BFragment) (finder : Nat → Nat → Option (List BFragment))
    (p1 p2 : List BFragment)
    (h4 : (adapterIndices frags).length = 4)
    (hpaths : collectPaths frags finder = [p1, p2])
    (hscore : scorePath p1 ≠ scorePath p2) :
    ∃ p, simulate_adapters_assembly assemble frags finder = .fragment (assemble p) ∧
      (p = p1 ∨ p = p2) ∧ scorePath p = min (scorePath p1) (scorePath p2) := by
  unfold simulate_adapters_assembly
  rw [if_neg (by omega : ¬ (adapterIndices frags).length ≠ 4), hpaths,
    selectConstruct_pair]
  rcases Nat.lt_trichotomy (scorePath p1) (scorePath p2) with hlt | heq | hgt
  · rw [if_pos hlt]
    exact ⟨p1, rfl, Or.inl rfl, (Nat.min_eq_left (le_of_lt hlt)).symm⟩
  · exact absurd heq hscore
  · rw [if_neg (not_lt.2 (le_of_lt hgt)), if_pos hgt]
    exact ⟨p2, rfl, Or.inr rfl, (Nat.min_eq_right (le_of_lt hgt)).symm⟩

theorem adapters_assembly_min_score_witness :
    (adapterIndices [bLong, bLong, bLong, bLong]).length = 4 ∧
    collectPaths [bLong, bLong, bLong, bLong] finderTwo = [[bRev], [bLong]] ∧
    scorePath [bRev] ≠ scorePath [bLong] ∧
    ∃ p, simulate_adapters_assembly (fun q => q) [bLong, bLong, bLong, bLong] finderTwo =
        .fragment p ∧
      (p = [bRev] ∨ p = [bLong]) ∧
      scorePath p = min (scorePath [bRev]) (scorePath [bLong]) :=
  ⟨by decide, by decide, by decide,
    adapters_assembly_min_score (fun q => q) [bLong, bLong, bLong, bLong] finderTwo
      [bRev] [bLong] (by decide) (by decide) (by decide)⟩

/-- C9: whenever `BASICAssembly.simulate` returns a simulation (rather
than raising), its construct-record list holds at most `max_constructs`
records and is sorted in non-decreasing order of the assembled sequence
string. -/
theorem simulateBASIC_sorted_and_capped {P κ C : Type}
    (stage : List P → AdapterOutcome κ) (circular_assemblies : List κ → List C)
    (seqStr : C → List Nat) (max_constructs : Nat) (parts : List P) (sim : BasicSim C)
    (h : simulateBASIC stage circular_assemblies seqStr max_constructs parts = .ok sim) :
    sim.construct_records.length ≤ max_constructs ∧
      sim.construct_records.Pairwise (fun a b => seqStr a ≤ seqStr b) := by
  unfold simulateBASIC at h
  by_cases h3 : parts.length % 3 ≠ 0
  · rw [if_pos h3] at h
    obtain rfl := SimOutcome.ok.inj h
    exact ⟨Nat.zero_le _, List.Pairwise.nil⟩
  · rw [if_neg h3] at h
    rcases hpt : processTriplets stage (tripletsOf parts) with frs | msg | m <;>
      rw [hpt] at h <;> simp only [assembleStage] at h
    · obtain rfl := SimOutcome.ok.inj h
      constructor
      · rw [List.length_mergeSort, List.length_take]
        exact min_le_left _ _
      · have htrans : ∀ a b c : C,
            (fun a b => decide (seqStr a ≤ seqStr b)) a b = true →
            (fun a b => decide (seqStr a ≤ seqStr b)) b c = true →
            (fun a b => decide (seqStr a ≤ seqStr b)) a c = true := by
          intro a b c hab hbc
          simp only [decide_eq_true_eq] at hab hbc ⊢
          exact le_trans hab hbc
        have htotal : ∀ a b : C,
            ((fun a b => decide (seqStr a ≤ seqStr b)) a b ||
              (fun a b => decide (seqStr a ≤ seqStr b)) b a) = true := by
          intro a b
          simp only [Bool.or_eq_true, decide_eq_true_eq]
          exact le_total _ _
        have hs := List.sorted_mergeSort htrans htotal
          ((circular_assemblies frs).take max_constructs)
        exact hs.imp (fun hab => of_decide_eq_true hab)
    · obtain rfl := SimOutcome.ok.inj h
      exact ⟨Nat.zero_le _, List.Pairwise.nil⟩
    · exact absurd h (by simp)

theorem simulateBASIC_sorted_and_capped_witness :
    simulateBASIC (fun (_ : List Nat) => AdapterOutcome.fragment (0 : Nat))
        (fun (_ : List Nat) => ([] : List (List Nat))) (fun s => s) 5 ([] : List Nat) =
      .ok ⟨[], [], 1⟩ ∧
    (([] : List (List Nat)).length ≤ 5 ∧
      ([] : List (List Nat)).Pairwise (fun a b => a ≤ b)) := by
  have hrun : simulateBASIC (fun (_ : List Nat) => AdapterOutcome.fragment (0 : Nat))
      (fun (_ : List Nat) => ([] : List (List Nat))) (fun s => s) 5 ([] : List Nat) =
      .ok ⟨[], [], 1⟩ := by
    simp [simulateBASIC, assembleStage, tripletsOf, processTriplets]
  exact ⟨hrun,
    simulateBASIC_sorted_and_capped (fun (_ : List Nat) => AdapterOutcome.fragment (0 : Nat))
      (fun (_ : List Nat) => ([] : List (List Nat))) (fun s => s) 5 ([] : List Nat)
      ⟨[], [], 1⟩ hrun⟩
